import Mathlib

/-!
Shallow embedding of `src/pipeline/hybrid_search.py`.

Modelling conventions:
* Python floats are idealised as exact rationals (`ℚ`); the scoring formulas use
  only field operations, except `math.log`, which is modelled by an abstract
  function parameter `log : ℚ → ℚ` so that every theorem holds for the actual
  logarithm routine in particular.
* Python's `dict` preserves insertion order; it is modelled as an association
  list where assignment updates an existing key in place and appends new keys.
* Python's `sorted` is guaranteed stable (also with `reverse=True`); it is
  modelled by the extensionally equal stable `List.insertionSort` with the
  relation "may come first", i.e. `key y ≤ key x` for a descending sort.
* `hash(content)` is modelled by an abstract function `h : String → Int`
  (CPython randomises string hashing per process, so no fixed function is
  faithful; theorems are parametric in `h`).
-/

/-- Metadata mapping attached to a document (string keys and values). -/
abbrev Metadata := List (String × String)

/-- A `(content, score, metadata)` tuple as produced by `_vector_search` /
`_bm25_search`. -/
abbrev Doc := String × ℚ × Metadata

/-- The `SearchResult` dataclass. -/
structure SearchResult where
  content : String
  metadata : Metadata
  score : ℚ
  source : String
  deriving DecidableEq

/-- Contents of a result list, in order. -/
def contentsOf (l : List Doc) : List String :=
  l.map (fun d => d.1)

/-- Lookup in an insertion-ordered association list (Python `d.get(k)`). -/
def dget {α : Type} : List (Int × α) → Int → Option α
  | [], _ => none
  | (k2, v) :: d, k => if k2 = k then some v else dget d k

/-- Assignment in an insertion-ordered association list (Python `d[k] = v`):
updates an existing key in place, otherwise appends at the end. -/
def dset {α : Type} : List (Int × α) → Int → α → List (Int × α)
  | [], k, v => [(k, v)]
  | (k2, v2) :: d, k, v => if k2 = k then (k, v) :: d else (k2, v2) :: dset d k v

/-- The keys of an association list, in insertion order (Python `d.keys()`). -/
def keysOf {α : Type} (d : List (Int × α)) : List Int :=
  d.map (fun p => p.1)

@[simp]
theorem dget_nil {α : Type} (k : Int) : dget ([] : List (Int × α)) k = none := rfl

@[simp]
theorem dget_cons {α : Type} (k2 : Int) (v : α) (d : List (Int × α)) (k : Int) :
    dget ((k2, v) :: d) k = if k2 = k then some v else dget d k := rfl

@[simp]
theorem dset_nil {α : Type} (k : Int) (v : α) : dset ([] : List (Int × α)) k v = [(k, v)] := rfl

@[simp]
theorem dset_cons {α : Type} (k2 : Int) (v2 : α) (d : List (Int × α)) (k : Int) (v : α) :
    dset ((k2, v2) :: d) k v = if k2 = k then (k, v) :: d else (k2, v2) :: dset d k v := rfl

theorem dget_dset_self {α : Type} (d : List (Int × α)) (k : Int) (v : α) :
    dget (dset d k v) k = some v := by
  induction d with
  | nil => simp
  | cons p d ih =>
    obtain ⟨k2, v2⟩ := p
    by_cases hk : k2 = k <;> simp [hk, ih]

theorem dget_dset_ne {α : Type} (d : List (Int × α)) (k k2 : Int) (v : α) (hne : k2 ≠ k) :
    dget (dset d k2 v) k = dget d k := by
  induction d with
  | nil => simp [hne]
  | cons p d ih =>
    obtain ⟨k3, v3⟩ := p
    by_cases hk : k3 = k2
    · subst hk
      simp [hne]
    · simp only [dset_cons, if_neg hk]
      by_cases hk3 : k3 = k <;> simp [hk3, ih]

theorem keysOf_dset {α : Type} (d : List (Int × α)) (k : Int) (v : α) :
    keysOf (dset d k v) = if k ∈ keysOf d then keysOf d else keysOf d ++ [k] := by
  induction d with
  | nil => simp [keysOf]
  | cons p d ih =>
    obtain ⟨k2, v2⟩ := p
    by_cases hk : k2 = k
    · subst hk
      simp [keysOf]
    · have hk2 : ¬k = k2 := fun h => hk h.symm
      simp only [keysOf, List.map_cons] at ih ⊢
      simp only [dset_cons, if_neg hk, List.map_cons]
      rw [ih]
      by_cases hmem : k ∈ List.map (fun p : Int × α => p.1) d <;> simp [hmem, hk2]

theorem dget_isSome_iff_mem_keys {α : Type} (d : List (Int × α)) (k : Int) :
    (dget d k).isSome ↔ k ∈ keysOf d := by
  induction d with
  | nil => simp [keysOf]
  | cons p d ih =>
    obtain ⟨k2, v2⟩ := p
    by_cases hk : k2 = k
    · simp [keysOf, hk]
    · have hk2 : ¬k = k2 := fun h => hk h.symm
      simp [keysOf, hk, hk2] at ih ⊢
      exact ih

/-! ## BM25Okapi (`src/pipeline/hybrid_search.py`, lines 17-70) -/

/-- `self.term_doc_freq[term]`: the number of corpus documents containing
`term` at least once (built in `BM25Okapi.__init__`). -/
def docFreq (corpus : List (List String)) (term : String) : ℕ :=
  corpus.countP (fun doc => term ∈ doc)

/-- `self.avg_doc_len`: arithmetic mean of token counts, `0` for an empty
corpus (`sum(len(doc) for doc in corpus) / self.corpus_size if self.corpus_size else 0.0`). -/
def avgDocLen (corpus : List (List String)) : ℚ :=
  if corpus.length = 0 then 0
  else ((corpus.map List.length).sum : ℚ) / (corpus.length : ℚ)

/-- One iteration of the outer `for term in query_terms` loop of
`BM25Okapi.get_scores`: skip the term if `df == 0`, otherwise add
`idf * (term_freq * (k1 + 1)) / denom` to every document's cell (documents
with `term_freq == 0` are skipped, i.e. left unchanged). -/
def bm25TermStep (log : ℚ → ℚ) (k1 b : ℚ) (corpus : List (List String))
    (scores : List ℚ) (term : String) : List ℚ :=
  let df := docFreq corpus term
  if df = 0 then scores
  else
    let idf := log (1 + ((corpus.length : ℚ) - (df : ℚ) + 1/2) / ((df : ℚ) + 1/2))
    List.zipWith
      (fun s doc =>
        let term_freq : ℕ := doc.count term
        if term_freq = 0 then s
        else
          let doc_len : ℚ := (doc.length : ℚ)
          let denom : ℚ :=
            if avgDocLen corpus ≠ 0 then
              (term_freq : ℚ) + k1 * (1 - b + b * doc_len / avgDocLen corpus)
            else (term_freq : ℚ) + k1
          s + idf * ((term_freq : ℚ) * (k1 + 1)) / denom)
      scores corpus

/-- `BM25Okapi.get_scores`: a zero vector of length `corpus_size`, accumulated
over the query terms; an empty corpus yields the empty score vector. -/
def get_scores (log : ℚ → ℚ) (k1 b : ℚ) (corpus : List (List String))
    (query_terms : List String) : List ℚ :=
  if corpus.length = 0 then []
  else query_terms.foldl (bm25TermStep log k1 b corpus) (List.replicate corpus.length 0)

/-- The specification's per-term contribution to document `i`
(`idf(t) · tf(t,i)·(k1+1) / (tf(t,i) + k1·(1 − b + b·len(i)/avgLen))`, with the
`tf+k1` fallback when `avgLen = 0`, and `0` when `df(t) = 0`). -/
def bm25TermScore (log : ℚ → ℚ) (k1 b : ℚ) (corpus : List (List String))
    (term : String) (i : ℕ) : ℚ :=
  let df := docFreq corpus term
  if df = 0 then 0
  else
    let idf := log (1 + ((corpus.length : ℚ) - (df : ℚ) + 1/2) / ((df : ℚ) + 1/2))
    let doc := corpus.getD i []
    let tf : ℚ := (doc.count term : ℚ)
    let denom : ℚ :=
      if avgDocLen corpus ≠ 0 then
        tf + k1 * (1 - b + b * (doc.length : ℚ) / avgDocLen corpus)
      else tf + k1
    idf * (tf * (k1 + 1)) / denom

/-! ## Reciprocal Rank Fusion (`_reciprocal_rank_fusion`, lines 186-228) -/

/-- The reciprocal-rank factor `1 / (k + rank + 1)`. -/
def rrfQ (kR : ℕ) (rank : ℕ) : ℚ :=
  1 / ((kR : ℚ) + (rank : ℚ) + 1)

/-- The three insertion-ordered dicts built by `_reciprocal_rank_fusion`. -/
structure FState where
  scores : List (Int × ℚ)
  content_map : List (Int × String)
  metadata_map : List (Int × Metadata)

/-- One iteration of a `for rank, (content, score, metadata) in enumerate(...)`
loop: `scores[key] = scores.get(key, 0) + weight * (1 / (k + rank + 1))`,
`content_map[key] = content`, `metadata_map[key] = metadata`, where
`key = hash(content)`.  The raw `score` component of the tuple is unused. -/
def rrfStep (h : String → Int) (w : ℚ) (kR : ℕ) (st : FState) (item : ℕ × Doc) : FState :=
  let rank := item.1
  let content := item.2.1
  let metadata := item.2.2.2
  let content_key := h content
  let rrf_score := w * rrfQ kR rank
  { scores := dset st.scores content_key ((dget st.scores content_key).getD 0 + rrf_score)
    content_map := dset st.content_map content_key content
    metadata_map := dset st.metadata_map content_key metadata }

/-- The dict state after scoring the vector results (weight `vector_weight`)
and then the BM25 results (weight `bm25_weight`). -/
def rrfState (h : String → Int) (wv wb : ℚ) (kR : ℕ) (vec bm : List Doc) : FState :=
  List.foldl (rrfStep h wb kR) (List.foldl (rrfStep h wv kR) ⟨[], [], []⟩ vec.enum) bm.enum

/-- The "may come first" relation of a stable descending sort by `key`
(Python `sorted(..., key=key, reverse=True)`). -/
def keyRel {α : Type} (key : α → ℚ) : α → α → Prop :=
  fun x y => key y ≤ key x

instance {α : Type} (key : α → ℚ) : DecidableRel (keyRel key) :=
  fun x y => inferInstanceAs (Decidable (key y ≤ key x))

/-- `HybridSearch._reciprocal_rank_fusion`: build the score/content/metadata
dicts, sort the keys by combined score descending (stable), truncate to
`top_k`, and materialise `SearchResult`s with `source = "hybrid"`. -/
def reciprocal_rank_fusion (h : String → Int) (wv wb : ℚ) (kR : ℕ)
    (vec bm : List Doc) (top_k : ℕ) : List SearchResult :=
  ((List.insertionSort
      (keyRel (fun x => (dget (rrfState h wv wb kR vec bm).scores x).getD 0))
      (keysOf (rrfState h wv wb kR vec bm).scores)).take top_k).map
    (fun key =>
      { content := (dget (rrfState h wv wb kR vec bm).content_map key).getD ""
        metadata := (dget (rrfState h wv wb kR vec bm).metadata_map key).getD []
        score := (dget (rrfState h wv wb kR vec bm).scores key).getD 0
        source := "hybrid" })

/-! ## `_bm25_search` and `search` (lines 101-171) -/

/-- `query.lower().split()`: lower-case, split on whitespace runs, no empty
tokens. -/
def pyTokenize (q : String) : List String :=
  (q.toLower.split Char.isWhitespace).filter (fun t => t ≠ "")

/-- Python's `xs[-top_k:]` slice followed by `[::-1]`.  Note `xs[-0:]` is the
whole list, faithfully reproduced here. -/
def pyLastRevSlice {α : Type} (xs : List α) (top_k : ℕ) : List α :=
  if top_k = 0 then xs.reverse else (xs.drop (xs.length - top_k)).reverse

/-- `HybridSearch._bm25_search`: tokenize the query, score the corpus, take the
`top_k` highest-scoring indices (via `np.argsort`, modelled as a stable
ascending sort by score; ties are irrelevant to every claim below), and keep
the documents with strictly positive score. -/
def bm25Scores (log : ℚ → ℚ) (docs : List (String × Metadata)) (q : String) : List ℚ :=
  get_scores log (3/2) (3/4) (docs.map (fun d => pyTokenize d.1)) (pyTokenize q)

def bm25_search (log : ℚ → ℚ) (docs : List (String × Metadata)) (q : String)
    (top_k : ℕ) : List Doc :=
  ((pyLastRevSlice
      (List.insertionSort (keyRel (fun i => -((bm25Scores log docs q).getD i 0)))
        (List.range (bm25Scores log docs q).length)) top_k).filter
    (fun i => 0 < (bm25Scores log docs q).getD i 0)).map
    (fun i => ((docs.getD i ("", [])).1, (bm25Scores log docs q).getD i 0,
      (docs.getD i ("", [])).2))

/-- `HybridSearch.search` with the vector subsystem's reply supplied as data
(the embedder and Chroma store are external collaborators): fuse the vector
results with the BM25 results, `k_rrf = 60`, and return the combined list. -/
def searchModel (log : ℚ → ℚ) (h : String → Int) (wv wb : ℚ) (vecRes : List Doc)
    (docs : List (String × Metadata)) (q : String) (top_k : ℕ) : List SearchResult :=
  reciprocal_rank_fusion h wv wb 60 vecRes (bm25_search log docs q top_k) top_k

/-- `HybridSearch.search` with fallible subsystems: `asyncio.gather` without
`return_exceptions` propagates a task's exception, so the query fails whenever
either subsystem task raises. -/
def searchE (h : String → Int) (wv wb : ℚ) (vecOutcome bmOutcome : Except String (List Doc))
    (top_k : ℕ) : Except String (List SearchResult) :=
  match vecOutcome with
  | Except.error e => Except.error e
  | Except.ok v =>
    match bmOutcome with
    | Except.error e => Except.error e
    | Except.ok b => Except.ok (reciprocal_rank_fusion h wv wb 60 v b top_k)

/-! ## BM25 scoring lemmas (claim C2) -/

theorem getD_replicate_zero (n i : ℕ) : (List.replicate n (0 : ℚ)).getD i 0 = 0 := by
  by_cases hi : i < n
  · rw [List.getD_eq_getElem _ _ (by simpa using hi)]
    exact List.getElem_replicate _ _
  · exact List.getD_eq_default _ _ (by simpa using Nat.le_of_not_lt hi)

theorem bm25TermStep_length (log : ℚ → ℚ) (k1 b : ℚ) (corpus : List (List String))
    (scores : List ℚ) (term : String) (hlen : scores.length = corpus.length) :
    (bm25TermStep log k1 b corpus scores term).length = corpus.length := by
  unfold bm25TermStep
  by_cases hdf : docFreq corpus term = 0 <;>
    simp [hdf, hlen, List.length_zipWith]

theorem bm25TermStep_getD (log : ℚ → ℚ) (k1 b : ℚ) (corpus : List (List String))
    (scores : List ℚ) (term : String) (i : ℕ)
    (hlen : scores.length = corpus.length) (hi : i < corpus.length) :
    (bm25TermStep log k1 b corpus scores term).getD i 0
      = scores.getD i 0 + bm25TermScore log k1 b corpus term i := by
  have hdoc : corpus.getD i [] = corpus[i] := List.getD_eq_getElem _ _ hi
  by_cases hdf : docFreq corpus term = 0
  · simp [bm25TermStep, bm25TermScore, hdf]
  · have hzl : i < (List.zipWith
        (fun (s : ℚ) (doc : List String) =>
          let term_freq : ℕ := doc.count term
          if term_freq = 0 then s
          else
            let doc_len : ℚ := (doc.length : ℚ)
            let denom : ℚ :=
              if avgDocLen corpus ≠ 0 then
                (term_freq : ℚ) + k1 * (1 - b + b * doc_len / avgDocLen corpus)
              else (term_freq : ℚ) + k1
            s + log (1 + ((corpus.length : ℚ) - (docFreq corpus term : ℚ) + 1/2)
                / ((docFreq corpus term : ℚ) + 1/2)) * ((term_freq : ℚ) * (k1 + 1)) / denom)
        scores corpus).length := by
      simp [List.length_zipWith, hlen, hi]
    unfold bm25TermStep
    simp only [hdf, if_false, if_neg hdf]
    rw [List.getD_eq_getElem _ _ hzl, List.getElem_zipWith,
      ← List.getD_eq_getElem scores 0 (by omega : i < scores.length)]
    by_cases htf : (corpus[i].count term) = 0
    · simp only [bm25TermScore, hdoc, if_neg hdf, htf]
      simp
    · simp only [bm25TermScore, hdoc, if_neg hdf, htf, if_false]

theorem bm25_fold_getD (log : ℚ → ℚ) (k1 b : ℚ) (corpus : List (List String)) (i : ℕ)
    (hi : i < corpus.length) :
    ∀ (q : List String) (scores : List ℚ), scores.length = corpus.length →
      (q.foldl (bm25TermStep log k1 b corpus) scores).getD i 0
        = scores.getD i 0 + (q.map (fun t => bm25TermScore log k1 b corpus t i)).sum := by
  intro q
  induction q with
  | nil => intro scores _; simp
  | cons t q ih =>
    intro scores hlen
    rw [List.foldl_cons, ih _ (bm25TermStep_length log k1 b corpus scores t hlen),
      bm25TermStep_getD log k1 b corpus scores t i hlen hi]
    simp [add_assoc]

/-- C2: for every built corpus and query-term sequence, the lexical score of
document `i` is the sum over the query terms of the specification's BM25
contribution `idf(t) · tf(t,i)·(k1+1) / (tf(t,i) + k1·(1 − b + b·len(i)/avgLen))`
(with the `tf+k1` fallback when `avgLen = 0`, and `idf(t) = log(1 + (N − df(t)
+ 0.5)/(df(t) + 0.5))`, terms with `df(t) = 0` contributing `0`); in
particular a document containing none of the query's tokens scores exactly
`0`. -/
theorem bm25_get_scores_spec (log : ℚ → ℚ) (k1 b : ℚ) (corpus : List (List String))
    (q : List String) (i : ℕ) (hi : i < corpus.length) :
    (get_scores log k1 b corpus q).getD i 0
        = (q.map (fun t => bm25TermScore log k1 b corpus t i)).sum
      ∧ ((∀ t ∈ q, (corpus.getD i []).count t = 0) →
        (get_scores log k1 b corpus q).getD i 0 = 0) := by
  have hne : ¬corpus.length = 0 := by omega
  have hmain : (get_scores log k1 b corpus q).getD i 0
      = (q.map (fun t => bm25TermScore log k1 b corpus t i)).sum := by
    unfold get_scores
    rw [if_neg hne,
      bm25_fold_getD log k1 b corpus i hi q (List.replicate corpus.length 0)
        (by simp), getD_replicate_zero]
    ring
  refine ⟨hmain, fun hzero => ?_⟩
  rw [hmain]
  apply List.sum_eq_zero
  intro x hx
  obtain ⟨t, ht, rfl⟩ := List.mem_map.mp hx
  have htf := hzero t ht
  by_cases hdf : docFreq corpus t = 0
  · simp [bm25TermScore, hdf]
  · simp only [bm25TermScore, if_neg hdf]
    rw [htf]
    simp

/-- Witness for C2 on the corpus of §8 of the specification: with the corpus
`["the gpu is fast", "the cpu is slow", "ssd storage speed"]` (tokenised) and
query `["fast", "gpu"]`, document 2 contains no query token and scores `0`. -/
theorem bm25_get_scores_spec_witness :
    (get_scores (fun x => x) (3/2) (3/4)
        [["the", "gpu", "is", "fast"], ["the", "cpu", "is", "slow"],
          ["ssd", "storage", "speed"]] ["fast", "gpu"]).getD 2 0
      = (["fast", "gpu"].map (fun t => bm25TermScore (fun x => x) (3/2) (3/4)
          [["the", "gpu", "is", "fast"], ["the", "cpu", "is", "slow"],
            ["ssd", "storage", "speed"]] t 2)).sum
    ∧ (get_scores (fun x => x) (3/2) (3/4)
        [["the", "gpu", "is", "fast"], ["the", "cpu", "is", "slow"],
          ["ssd", "storage", "speed"]] ["fast", "gpu"]).getD 2 0 = 0 := by
  have h := bm25_get_scores_spec (fun x => x) (3/2) (3/4)
    [["the", "gpu", "is", "fast"], ["the", "cpu", "is", "slow"],
      ["ssd", "storage", "speed"]] ["fast", "gpu"] 2 (by decide)
  exact ⟨h.1, h.2 (by decide)⟩

/-! ## Fusion dict-fold lemmas -/

/-- Effect of one dict assignment on the key sequence. -/
def insKey (ks : List Int) (k : Int) : List Int :=
  if k ∈ ks then ks else ks ++ [k]

/-- 0-indexed rank of the first occurrence of `c` in `l`. -/
def rankOf : List String → String → ℕ
  | [], _ => 0
  | x :: xs, c => if x = c then 0 else rankOf xs c + 1

/-- The last-written `(content, score, metadata)` tuple for content `c`
(the tuple's metadata wins in `metadata_map`). -/
def metaLookup (l : List Doc) (c : String) : Metadata :=
  ((l.find? (fun d => d.1 = c)).map (fun d => d.2.2)).getD []

theorem keysOf_rrfStep (h : String → Int) (w : ℚ) (kR : ℕ) (st : FState) (item : ℕ × Doc) :
    keysOf (rrfStep h w kR st item).scores = insKey (keysOf st.scores) (h item.2.1) := by
  simp [rrfStep, insKey, keysOf_dset]

theorem keys_fold (h : String → Int) (w : ℚ) (kR : ℕ) :
    ∀ (l : List Doc) (n : ℕ) (st : FState),
      keysOf (List.foldl (rrfStep h w kR) st (List.enumFrom n l)).scores
        = List.foldl insKey (keysOf st.scores) (l.map (fun d => h d.1)) := by
  intro l
  induction l with
  | nil => intro n st; simp
  | cons d l ih =>
    intro n st
    rw [List.enumFrom_cons, List.foldl_cons, List.map_cons, List.foldl_cons,
      ih (n + 1) (rrfStep h w kR st (n, d)), keysOf_rrfStep]

theorem insKey_fold_of_nodup :
    ∀ (hs ks : List Int), hs.Nodup →
      List.foldl insKey ks hs = ks ++ hs.filter (fun k => decide (k ∉ ks)) := by
  intro hs
  induction hs with
  | nil => intro ks _; simp
  | cons k hs ih =>
    intro ks hnd
    rw [List.nodup_cons] at hnd
    obtain ⟨hk, hnd⟩ := hnd
    rw [List.foldl_cons]
    by_cases hmem : k ∈ ks
    · rw [show insKey ks k = ks from if_pos hmem, ih ks hnd]
      simp [List.filter_cons, hmem]
    · rw [show insKey ks k = ks ++ [k] from if_neg hmem, ih (ks ++ [k]) hnd]
      have hfil : hs.filter (fun k2 => decide (k2 ∉ ks ++ [k]))
          = hs.filter (fun k2 => decide (k2 ∉ ks)) := by
        apply List.filter_congr
        intro x hx
        have hxk : x ≠ k := fun hxk => hk (hxk ▸ hx)
        simp [hxk]
      rw [hfil]
      simp [List.filter_cons, hmem]

theorem scores_fold_getD (h : String → Int) (w : ℚ) (kR : ℕ) :
    ∀ (l : List Doc) (n : ℕ) (st : FState) (k : Int),
      (dget (List.foldl (rrfStep h w kR) st (List.enumFrom n l)).scores k).getD 0
        = (dget st.scores k).getD 0
          + (((List.enumFrom n l).filter (fun p => decide (h p.2.1 = k))).map
              (fun p => w * rrfQ kR p.1)).sum := by
  intro l
  induction l with
  | nil => intro n st k; simp
  | cons d l ih =>
    intro n st k
    rw [List.enumFrom_cons, List.foldl_cons,
      ih (n + 1) (rrfStep h w kR st (n, d)) k]
    by_cases hk : h d.1 = k
    · have : dget (rrfStep h w kR st (n, d)).scores k
          = some ((dget st.scores k).getD 0 + w * rrfQ kR n) := by
        simp only [rrfStep]
        rw [← hk]
        exact dget_dset_self _ _ _
      rw [this]
      simp [List.filter_cons, hk, add_assoc]
    · have : dget (rrfStep h w kR st (n, d)).scores k = dget st.scores k := by
        simp only [rrfStep]
        exact dget_dset_ne _ _ _ _ hk
      rw [this]
      simp [List.filter_cons, hk]

theorem fold_untouched (h : String → Int) (w : ℚ) (kR : ℕ) :
    ∀ (l : List Doc) (n : ℕ) (st : FState) (k : Int), (∀ d ∈ l, h d.1 ≠ k) →
      dget (List.foldl (rrfStep h w kR) st (List.enumFrom n l)).scores k = dget st.scores k
      ∧ dget (List.foldl (rrfStep h w kR) st (List.enumFrom n l)).content_map k
          = dget st.content_map k
      ∧ dget (List.foldl (rrfStep h w kR) st (List.enumFrom n l)).metadata_map k
          = dget st.metadata_map k := by
  intro l
  induction l with
  | nil => intro n st k _; simp
  | cons d l ih =>
    intro n st k hne
    have hd : h d.1 ≠ k := hne d (List.mem_cons_self d l)
    have hrest : ∀ d2 ∈ l, h d2.1 ≠ k := fun d2 hd2 => hne d2 (List.mem_cons_of_mem d hd2)
    rw [List.enumFrom_cons, List.foldl_cons]
    obtain ⟨h1, h2, h3⟩ := ih (n + 1) (rrfStep h w kR st (n, d)) k hrest
    refine ⟨?_, ?_, ?_⟩
    · rw [h1]; simp only [rrfStep]; exact dget_dset_ne _ _ _ _ hd
    · rw [h2]; simp only [rrfStep]; exact dget_dset_ne _ _ _ _ hd
    · rw [h3]; simp only [rrfStep]; exact dget_dset_ne _ _ _ _ hd

theorem cmap_fold (h : String → Int) (w : ℚ) (kR : ℕ) :
    ∀ (l : List Doc) (n : ℕ) (st : FState) (c : String),
      (∀ d ∈ l, h d.1 = h c → d.1 = c) → c ∈ contentsOf l →
      dget (List.foldl (rrfStep h w kR) st (List.enumFrom n l)).content_map (h c) = some c := by
  intro l
  induction l with
  | nil => intro n st c _ hc; simp [contentsOf] at hc
  | cons d l ih =>
    intro n st c hinj hc
    have hrest : ∀ d2 ∈ l, h d2.1 = h c → d2.1 = c :=
      fun d2 hd2 => hinj d2 (List.mem_cons_of_mem d hd2)
    rw [List.enumFrom_cons, List.foldl_cons]
    by_cases hd : d.1 = c
    · by_cases hcrest : c ∈ contentsOf l
      · exact ih (n + 1) _ c hrest hcrest
      · have hne : ∀ d2 ∈ l, h d2.1 ≠ h c := by
          intro d2 hd2 heq
          exact hcrest (by
            have : d2.1 = c := hrest d2 hd2 heq
            simpa [contentsOf, this] using List.mem_map_of_mem (fun x : Doc => x.1) hd2)
        obtain ⟨_, h2, _⟩ := fold_untouched h w kR l (n + 1) (rrfStep h w kR st (n, d)) (h c) hne
        rw [h2]
        simp only [rrfStep]
        rw [show h d.1 = h c from hd ▸ rfl, hd]
        exact dget_dset_self _ _ _
    · have hcrest : c ∈ contentsOf l := by
        simp only [contentsOf, List.map_cons, List.mem_cons] at hc
        rcases hc with hc | hc
        · exact absurd hc.symm hd
        · simpa [contentsOf] using hc
      exact ih (n + 1) _ c hrest hcrest

theorem mmap_fold (h : String → Int) (w : ℚ) (kR : ℕ) :
    ∀ (l : List Doc) (n : ℕ) (st : FState) (c : String),
      (∀ d ∈ l, h d.1 = h c → d.1 = c) → (contentsOf l).Nodup → c ∈ contentsOf l →
      dget (List.foldl (rrfStep h w kR) st (List.enumFrom n l)).metadata_map (h c)
        = some (metaLookup l c) := by
  intro l
  induction l with
  | nil => intro n st c _ _ hc; simp [contentsOf] at hc
  | cons d l ih =>
    intro n st c hinj hnd hc
    have hrest : ∀ d2 ∈ l, h d2.1 = h c → d2.1 = c :=
      fun d2 hd2 => hinj d2 (List.mem_cons_of_mem d hd2)
    have hnd2 : (d.1 :: List.map (fun x : Doc => x.1) l).Nodup := hnd
    have hndrest : (contentsOf l).Nodup := (List.nodup_cons.mp hnd2).2
    rw [List.enumFrom_cons, List.foldl_cons]
    by_cases hd : d.1 = c
    · have hcrest : c ∉ contentsOf l := hd ▸ (List.nodup_cons.mp hnd2).1
      have hne : ∀ d2 ∈ l, h d2.1 ≠ h c := by
        intro d2 hd2 heq
        exact hcrest (by
          have : d2.1 = c := hrest d2 hd2 heq
          simpa [contentsOf, this] using List.mem_map_of_mem (fun x : Doc => x.1) hd2)
      obtain ⟨_, _, h3⟩ := fold_untouched h w kR l (n + 1) (rrfStep h w kR st (n, d)) (h c) hne
      rw [h3]
      simp only [rrfStep]
      rw [show h d.1 = h c from hd ▸ rfl]
      rw [dget_dset_self]
      simp [metaLookup, List.find?_cons, hd]
    · have hcrest : c ∈ contentsOf l := by
        simp only [contentsOf, List.map_cons, List.mem_cons] at hc
        rcases hc with hc | hc
        · exact absurd hc.symm hd
        · simpa [contentsOf] using hc
      rw [ih (n + 1) _ c hrest hndrest hcrest]
      simp [metaLookup, List.find?_cons, hd]

theorem enum_filter_sum (h : String → Int) (w : ℚ) (kR : ℕ) (c : String) :
    ∀ (l : List Doc) (n : ℕ), (contentsOf l).Nodup →
      (∀ d ∈ l, h d.1 = h c → d.1 = c) →
      (((List.enumFrom n l).filter (fun p => decide (h p.2.1 = h c))).map
          (fun p => w * rrfQ kR p.1)).sum
        = if c ∈ contentsOf l then w * rrfQ kR (n + rankOf (contentsOf l) c) else 0 := by
  intro l
  induction l with
  | nil => intro n _ _; simp [contentsOf]
  | cons d l ih =>
    intro n hnd hinj
    have hnd2 : (d.1 :: List.map (fun x : Doc => x.1) l).Nodup := hnd
    have hndrest : (contentsOf l).Nodup := (List.nodup_cons.mp hnd2).2
    have hrest : ∀ d2 ∈ l, h d2.1 = h c → d2.1 = c :=
      fun d2 hd2 => hinj d2 (List.mem_cons_of_mem d hd2)
    rw [List.enumFrom_cons]
    by_cases hd : d.1 = c
    · have hcrest : c ∉ contentsOf l := hd ▸ (List.nodup_cons.mp hnd2).1
      have hkey : h d.1 = h c := by rw [hd]
      rw [List.filter_cons, if_pos (by simpa using hkey)]
      rw [List.map_cons, List.sum_cons, ih (n + 1) hndrest hrest]
      have hmem : c ∈ contentsOf (d :: l) := by
        simp [contentsOf, hd]
      rw [if_neg hcrest, if_pos hmem]
      have hrank : rankOf (contentsOf (d :: l)) c = 0 := by
        simp [contentsOf, rankOf, hd]
      rw [hrank]
      simp
    · have hkey : ¬h d.1 = h c := fun heq => hd (hinj d (List.mem_cons_self d l) heq)
      rw [List.filter_cons, if_neg (by simpa using hkey)]
      rw [ih (n + 1) hndrest hrest]
      have hmemiff : (c ∈ contentsOf (d :: l)) = (c ∈ contentsOf l) := by
        simp only [contentsOf, List.map_cons, List.mem_cons, eq_self_iff_true]
        have : ¬c = d.1 := fun hcd => hd hcd.symm
        simp [this]
      by_cases hcl : c ∈ contentsOf l
      · rw [if_pos hcl, if_pos (by rw [hmemiff]; exact hcl)]
        have hrank : rankOf (contentsOf (d :: l)) c = rankOf (contentsOf l) c + 1 := by
          simp [contentsOf, rankOf, hd]
        rw [hrank, show n + (rankOf (contentsOf l) c + 1) = n + 1 + rankOf (contentsOf l) c
          from by omega]
      · rw [if_neg hcl, if_neg (by rw [hmemiff]; exact hcl)]

/-! ## Specification-side description of the fused state -/

/-- The fused RRF score of a document with content `c`: the sum, over the input
lists containing `c`, of `w_L · 1/(k + rank_L(c) + 1)`. -/
def fusedScore (wv wb : ℚ) (kR : ℕ) (vec bm : List Doc) (c : String) : ℚ :=
  (if c ∈ contentsOf vec then wv * rrfQ kR (rankOf (contentsOf vec) c) else 0)
  + (if c ∈ contentsOf bm then wb * rrfQ kR (rankOf (contentsOf bm) c) else 0)

/-- Dict insertion order of the fused keys: all vector contents in rank order,
then the BM25-only contents in rank order. -/
def mergedContents (vec bm : List Doc) : List String :=
  contentsOf vec ++ (contentsOf bm).filter (fun c => decide (c ∉ contentsOf vec))

/-- The metadata the fusion reports for content `c` (the BM25 loop runs second,
so its metadata wins for documents present in both lists). -/
def resolvedMeta (vec bm : List Doc) (c : String) : Metadata :=
  if c ∈ contentsOf bm then metaLookup bm c else metaLookup vec c

/-- The fused `SearchResult` for content `c`. -/
def specEntry (wv wb : ℚ) (kR : ℕ) (vec bm : List Doc) (c : String) : SearchResult :=
  { content := c
    metadata := resolvedMeta vec bm c
    score := fusedScore wv wb kR vec bm c
    source := "hybrid" }

/-- `h` is injective on the members of `l` (decidable). -/
def InjOnList (h : String → Int) (l : List String) : Prop :=
  ∀ c ∈ l, ∀ c2 ∈ l, h c = h c2 → c = c2

instance (h : String → Int) (l : List String) : Decidable (InjOnList h l) := by
  unfold InjOnList
  infer_instance

/-- Hash-free description of the fusion output: the merged contents sorted
stably by fused score descending, truncated to `top_k`, materialised as
`SearchResult`s. -/
def rrfSpec (wv wb : ℚ) (kR : ℕ) (vec bm : List Doc) (top_k : ℕ) : List SearchResult :=
  ((List.insertionSort (keyRel (fusedScore wv wb kR vec bm))
      (mergedContents vec bm)).take top_k).map (specEntry wv wb kR vec bm)

theorem enum_eq_enumFrom_zero {α : Type} (l : List α) : l.enum = List.enumFrom 0 l := rfl

theorem mem_merged {vec bm : List Doc} {c : String} (hc : c ∈ mergedContents vec bm) :
    c ∈ contentsOf vec ++ contentsOf bm := by
  rcases List.mem_append.mp hc with hv | hb
  · exact List.mem_append.mpr (Or.inl hv)
  · exact List.mem_append.mpr (Or.inr (List.mem_filter.mp hb).1)

theorem injOnList_resolve {h : String → Int} {vec bm : List Doc} {c : String}
    (Hinj : InjOnList h (contentsOf vec ++ contentsOf bm))
    (hc : c ∈ contentsOf vec ++ contentsOf bm) :
    (∀ d ∈ vec, h d.1 = h c → d.1 = c) ∧ (∀ d ∈ bm, h d.1 = h c → d.1 = c) := by
  constructor
  · intro d hd heq
    exact Hinj d.1
      (List.mem_append.mpr (Or.inl (List.mem_map_of_mem (fun x : Doc => x.1) hd))) c hc heq
  · intro d hd heq
    exact Hinj d.1
      (List.mem_append.mpr (Or.inr (List.mem_map_of_mem (fun x : Doc => x.1) hd))) c hc heq

theorem rrfState_scores_getD (h : String → Int) (wv wb : ℚ) (kR : ℕ) (vec bm : List Doc)
    (c : String)
    (Hv : ∀ d ∈ vec, h d.1 = h c → d.1 = c) (Hb : ∀ d ∈ bm, h d.1 = h c → d.1 = c)
    (Hnv : (contentsOf vec).Nodup) (Hnb : (contentsOf bm).Nodup) :
    (dget (rrfState h wv wb kR vec bm).scores (h c)).getD 0
      = fusedScore wv wb kR vec bm c := by
  unfold rrfState
  rw [enum_eq_enumFrom_zero bm, enum_eq_enumFrom_zero vec,
    scores_fold_getD h wb kR bm 0 _ (h c),
    scores_fold_getD h wv kR vec 0 _ (h c),
    enum_filter_sum h wb kR c bm 0 Hnb Hb,
    enum_filter_sum h wv kR c vec 0 Hnv Hv]
  simp only [dget_nil, Option.getD_none, zero_add, Nat.zero_add]
  rfl

theorem rrfState_cmap (h : String → Int) (wv wb : ℚ) (kR : ℕ) (vec bm : List Doc)
    (c : String)
    (Hv : ∀ d ∈ vec, h d.1 = h c → d.1 = c) (Hb : ∀ d ∈ bm, h d.1 = h c → d.1 = c)
    (hc : c ∈ mergedContents vec bm) :
    dget (rrfState h wv wb kR vec bm).content_map (h c) = some c := by
  unfold rrfState
  rw [enum_eq_enumFrom_zero bm, enum_eq_enumFrom_zero vec]
  by_cases hcb : c ∈ contentsOf bm
  · exact cmap_fold h wb kR bm 0 _ c Hb hcb
  · have hcv : c ∈ contentsOf vec := by
      rcases List.mem_append.mp hc with hv | hb
      · exact hv
      · exact absurd (List.mem_filter.mp hb).1 hcb
    have hne : ∀ d ∈ bm, h d.1 ≠ h c := by
      intro d hd heq
      exact hcb ((Hb d hd heq) ▸ List.mem_map_of_mem (fun x : Doc => x.1) hd)
    obtain ⟨_, h2, _⟩ := fold_untouched h wb kR bm 0 _ (h c) hne
    rw [h2]
    exact cmap_fold h wv kR vec 0 _ c Hv hcv

theorem rrfState_mmap (h : String → Int) (wv wb : ℚ) (kR : ℕ) (vec bm : List Doc)
    (c : String)
    (Hv : ∀ d ∈ vec, h d.1 = h c → d.1 = c) (Hb : ∀ d ∈ bm, h d.1 = h c → d.1 = c)
    (Hnv : (contentsOf vec).Nodup) (Hnb : (contentsOf bm).Nodup)
    (hc : c ∈ mergedContents vec bm) :
    dget (rrfState h wv wb kR vec bm).metadata_map (h c)
      = some (resolvedMeta vec bm c) := by
  unfold rrfState
  rw [enum_eq_enumFrom_zero bm, enum_eq_enumFrom_zero vec]
  by_cases hcb : c ∈ contentsOf bm
  · rw [mmap_fold h wb kR bm 0 _ c Hb Hnb hcb, resolvedMeta, if_pos hcb]
  · have hcv : c ∈ contentsOf vec := by
      rcases List.mem_append.mp hc with hv | hb
      · exact hv
      · exact absurd (List.mem_filter.mp hb).1 hcb
    have hne : ∀ d ∈ bm, h d.1 ≠ h c := by
      intro d hd heq
      exact hcb ((Hb d hd heq) ▸ List.mem_map_of_mem (fun x : Doc => x.1) hd)
    obtain ⟨_, _, h3⟩ := fold_untouched h wb kR bm 0 _ (h c) hne
    rw [h3, mmap_fold h wv kR vec 0 _ c Hv Hnv hcv, resolvedMeta, if_neg hcb]

theorem rrfState_keys (h : String → Int) (wv wb : ℚ) (kR : ℕ) (vec bm : List Doc)
    (Hinj : InjOnList h (contentsOf vec ++ contentsOf bm))
    (Hnv : (contentsOf vec).Nodup) (Hnb : (contentsOf bm).Nodup) :
    keysOf (rrfState h wv wb kR vec bm).scores = (mergedContents vec bm).map h := by
  have hvec_inj : ∀ x ∈ contentsOf vec, ∀ y ∈ contentsOf vec, h x = h y → x = y := by
    intro x hx y hy
    exact Hinj x (List.mem_append.mpr (Or.inl hx)) y (List.mem_append.mpr (Or.inl hy))
  have hbm_inj : ∀ x ∈ contentsOf bm, ∀ y ∈ contentsOf bm, h x = h y → x = y := by
    intro x hx y hy
    exact Hinj x (List.mem_append.mpr (Or.inr hx)) y (List.mem_append.mpr (Or.inr hy))
  have hvh : ((contentsOf vec).map h).Nodup := List.Nodup.map_on hvec_inj Hnv
  have hbh : ((contentsOf bm).map h).Nodup := List.Nodup.map_on hbm_inj Hnb
  have hmapv : vec.map (fun d => h d.1) = (contentsOf vec).map h := by
    simp [contentsOf, List.map_map, Function.comp]
  have hmapb : bm.map (fun d => h d.1) = (contentsOf bm).map h := by
    simp [contentsOf, List.map_map, Function.comp]
  unfold rrfState
  rw [enum_eq_enumFrom_zero bm, enum_eq_enumFrom_zero vec,
    keys_fold h wb kR bm 0 _, keys_fold h wv kR vec 0 _, hmapv, hmapb,
    insKey_fold_of_nodup _ _ hvh]
  have hkeys0 : keysOf (FState.mk [] [] []).scores = [] := rfl
  rw [hkeys0]
  have hfiltv : ((contentsOf vec).map h).filter (fun k => decide (k ∉ ([] : List Int)))
      = (contentsOf vec).map h := by
    apply List.filter_eq_self.mpr
    intro x _
    simp
  rw [List.nil_append, hfiltv, insKey_fold_of_nodup _ _ hbh]
  unfold mergedContents
  rw [List.map_append]
  congr 1
  rw [List.filter_map]
  congr 1
  apply List.filter_congr
  intro x hx
  have hxb : x ∈ contentsOf vec ++ contentsOf bm := List.mem_append.mpr (Or.inr hx)
  simp only [Function.comp]
  by_cases hxv : x ∈ contentsOf vec
  · have : h x ∈ (contentsOf vec).map h := List.mem_map_of_mem h hxv
    simp [this, hxv]
  · have : h x ∉ (contentsOf vec).map h := by
      intro hmem
      obtain ⟨a, ha, hah⟩ := List.mem_map.mp hmem
      have hax : a = x := Hinj a (List.mem_append.mpr (Or.inl ha)) x hxb hah
      exact hxv (hax ▸ ha)
    simp [this, hxv]

/-! ## Stability of the descending sort -/

theorem orderedInsert_pairwise_stable {α : Type} (key : α → ℚ) (P : α → α → Prop) (x : α) :
    ∀ (m : List α), m.Pairwise (fun a b => key b < key a ∨ (key b = key a ∧ P a b)) →
      (∀ y ∈ m, key x = key y → P x y) →
      (List.orderedInsert (keyRel key) x m).Pairwise
        (fun a b => key b < key a ∨ (key b = key a ∧ P a b)) := by
  intro m
  induction m with
  | nil => intro _ _; simp
  | cons b m ih =>
    intro hp hx
    by_cases hr : keyRel key x b
    · rw [List.orderedInsert, if_pos hr]
      refine List.pairwise_cons.mpr ⟨?_, hp⟩
      intro z hz
      rcases List.mem_cons.mp hz with rfl | hzm
      · rcases lt_or_eq_of_le hr with hlt | heq
        · exact Or.inl hlt
        · exact Or.inr ⟨heq, hx z (List.mem_cons_self _ _) heq.symm⟩
      · have hbz := (List.pairwise_cons.mp hp).1 z hzm
        rcases hbz with hlt | ⟨heq, _⟩
        · exact Or.inl (lt_of_lt_of_le hlt hr)
        · rcases lt_or_eq_of_le (le_trans (le_of_eq heq) hr) with hlt2 | heq2
          · exact Or.inl hlt2
          · exact Or.inr ⟨heq2, hx z (List.mem_cons_of_mem _ hzm) heq2.symm⟩
    · rw [List.orderedInsert, if_neg hr]
      have hxb : key x < key b := lt_of_not_le hr
      refine List.pairwise_cons.mpr ⟨?_, ?_⟩
      · intro z hz
        rcases (List.mem_orderedInsert (keyRel key)).mp hz with rfl | hzm
        · exact Or.inl hxb
        · exact (List.pairwise_cons.mp hp).1 z hzm
      · exact ih (List.pairwise_cons.mp hp).2
          (fun y hy heq => hx y (List.mem_cons_of_mem _ hy) heq)

theorem insertionSort_pairwise_stable {α : Type} (key : α → ℚ) (P : α → α → Prop) :
    ∀ l : List α, l.Pairwise (fun a b => key a = key b → P a b) →
      (List.insertionSort (keyRel key) l).Pairwise
        (fun a b => key b < key a ∨ (key b = key a ∧ P a b)) := by
  intro l
  induction l with
  | nil => intro _; simp
  | cons x l ih =>
    intro hp
    rw [List.insertionSort]
    apply orderedInsert_pairwise_stable
    · exact ih (List.pairwise_cons.mp hp).2
    · intro y hy heq
      exact (List.pairwise_cons.mp hp).1 y ((List.mem_insertionSort _).mp hy) heq

/-! ## The fusion output characterised hash-freely -/

theorem rrf_characterization (h : String → Int) (wv wb : ℚ) (kR : ℕ) (vec bm : List Doc)
    (top_k : ℕ)
    (Hinj : InjOnList h (contentsOf vec ++ contentsOf bm))
    (Hnv : (contentsOf vec).Nodup) (Hnb : (contentsOf bm).Nodup) :
    reciprocal_rank_fusion h wv wb kR vec bm top_k = rrfSpec wv wb kR vec bm top_k := by
  have hIv : ∀ c ∈ mergedContents vec bm, ∀ d ∈ vec, h d.1 = h c → d.1 = c :=
    fun c hc => (injOnList_resolve Hinj (mem_merged hc)).1
  have hIb : ∀ c ∈ mergedContents vec bm, ∀ d ∈ bm, h d.1 = h c → d.1 = c :=
    fun c hc => (injOnList_resolve Hinj (mem_merged hc)).2
  have hs : ∀ c ∈ mergedContents vec bm,
      (dget (rrfState h wv wb kR vec bm).scores (h c)).getD 0
        = fusedScore wv wb kR vec bm c :=
    fun c hc => rrfState_scores_getD h wv wb kR vec bm c (hIv c hc) (hIb c hc) Hnv Hnb
  have hcm : ∀ c ∈ mergedContents vec bm,
      dget (rrfState h wv wb kR vec bm).content_map (h c) = some c :=
    fun c hc => rrfState_cmap h wv wb kR vec bm c (hIv c hc) (hIb c hc) hc
  have hmm : ∀ c ∈ mergedContents vec bm,
      dget (rrfState h wv wb kR vec bm).metadata_map (h c)
        = some (resolvedMeta vec bm c) :=
    fun c hc => rrfState_mmap h wv wb kR vec bm c (hIv c hc) (hIb c hc) Hnv Hnb hc
  have hkeys := rrfState_keys h wv wb kR vec bm Hinj Hnv Hnb
  have hcompat : ∀ a ∈ mergedContents vec bm, ∀ b2 ∈ mergedContents vec bm,
      keyRel (fusedScore wv wb kR vec bm) a b2
        ↔ keyRel (fun x => (dget (rrfState h wv wb kR vec bm).scores x).getD 0) (h a) (h b2) := by
    intro a ha b2 hb2
    simp only [keyRel]
    rw [hs a ha, hs b2 hb2]
  unfold reciprocal_rank_fusion rrfSpec
  rw [hkeys,
    ← List.map_insertionSort (keyRel (fusedScore wv wb kR vec bm))
      (keyRel (fun x => (dget (rrfState h wv wb kR vec bm).scores x).getD 0)) h
      (mergedContents vec bm) hcompat,
    ← List.map_take, List.map_map]
  apply List.map_congr_left
  intro c hc
  have hcmem : c ∈ mergedContents vec bm :=
    (List.mem_insertionSort _).mp (List.take_subset _ _ hc)
  simp only [Function.comp]
  rw [hcm c hcmem, hmm c hcmem, hs c hcmem]
  rfl

/-! ## Rank and reciprocal-rank helper lemmas -/

theorem rrfQ_pos (kR r : ℕ) : 0 < rrfQ kR r := by
  unfold rrfQ
  apply one_div_pos.mpr
  positivity

theorem rrfQ_lt_of_lt (kR : ℕ) {r1 r2 : ℕ} (hr : r1 < r2) : rrfQ kR r2 < rrfQ kR r1 := by
  unfold rrfQ
  apply one_div_lt_one_div_of_lt
  · positivity
  · have : (r1 : ℚ) < (r2 : ℚ) := by exact_mod_cast hr
    linarith

theorem rankOf_pairwise : ∀ (l : List String), l.Nodup →
    l.Pairwise (fun a b => rankOf l a < rankOf l b) := by
  intro l
  induction l with
  | nil => intro _; simp
  | cons x xs ih =>
    intro hnd
    obtain ⟨hx, hnd2⟩ := List.nodup_cons.mp hnd
    refine List.pairwise_cons.mpr ⟨?_, ?_⟩
    · intro b hb
      have hbx : ¬x = b := fun hxb => hx (hxb ▸ hb)
      simp [rankOf, hbx]
    · have hxs := ih hnd2
      apply hxs.imp_of_mem
      intro a b ha hb hab
      have hax : ¬x = a := fun hxa => hx (hxa ▸ ha)
      have hbx : ¬x = b := fun hxb => hx (hxb ▸ hb)
      simp [rankOf, hax, hbx]
      omega

theorem mergedContents_nodup {vec bm : List Doc}
    (Hnv : (contentsOf vec).Nodup) (Hnb : (contentsOf bm).Nodup) :
    (mergedContents vec bm).Nodup := by
  unfold mergedContents
  rw [List.nodup_append]
  refine ⟨Hnv, Hnb.filter _, ?_⟩
  intro a hav hab
  have := (List.mem_filter.mp hab).2
  simp only [decide_eq_true_eq] at this
  exact this hav

/-! ## Claim theorems -/

/-- C1: for every pair of result lists and every document content `c` (with the
content hash injective on the contents at hand and duplicate-free ranking
lists), the fused score accumulated by `_reciprocal_rank_fusion` under key
`hash(c)` equals the sum, over the lists containing `c`, of
`w_L · 1/(60 + r + 1)` where `r` is the 0-indexed rank of `c` in that list,
with the default weights `w_vector = 0.7` and `w_lexical = 0.3`; a document
present in only one list receives exactly that list's contribution. -/
theorem rrf_fused_score_c1 (h : String → Int) (vec bm : List Doc) (c : String)
    (Hinj : InjOnList h (c :: (contentsOf vec ++ contentsOf bm)))
    (Hnv : (contentsOf vec).Nodup) (Hnb : (contentsOf bm).Nodup) :
    (dget (rrfState h (7/10) (3/10) 60 vec bm).scores (h c)).getD 0
      = (if c ∈ contentsOf vec then
          (7/10) * (1 / (60 + (rankOf (contentsOf vec) c : ℚ) + 1)) else 0)
        + (if c ∈ contentsOf bm then
          (3/10) * (1 / (60 + (rankOf (contentsOf bm) c : ℚ) + 1)) else 0) := by
  have hcmem : c ∈ c :: (contentsOf vec ++ contentsOf bm) := List.mem_cons_self _ _
  have Hv : ∀ d ∈ vec, h d.1 = h c → d.1 = c := by
    intro d hd heq
    exact Hinj d.1 (List.mem_cons_of_mem _
      (List.mem_append.mpr (Or.inl (List.mem_map_of_mem (fun x : Doc => x.1) hd)))) c hcmem heq
  have Hb : ∀ d ∈ bm, h d.1 = h c → d.1 = c := by
    intro d hd heq
    exact Hinj d.1 (List.mem_cons_of_mem _
      (List.mem_append.mpr (Or.inr (List.mem_map_of_mem (fun x : Doc => x.1) hd)))) c hcmem heq
  rw [rrfState_scores_getD h (7/10) (3/10) 60 vec bm c Hv Hb Hnv Hnb]
  unfold fusedScore rrfQ
  norm_num

/-- Witness for C1: concrete two-element instance with an injective hash;
the document in both lists receives both contributions, computed here. -/
theorem rrf_fused_score_c1_witness :
    (dget (rrfState (fun s => if s = "docA" then (0 : Int) else 1) (7/10) (3/10) 60
        [("docA", (9:ℚ), ([] : Metadata))]
        [("docB", (2:ℚ), ([] : Metadata)), ("docA", (1:ℚ), ([] : Metadata))]).scores
        ((fun s => if s = "docA" then (0 : Int) else 1) "docA")).getD 0
      = (if "docA" ∈ contentsOf [("docA", (9:ℚ), ([] : Metadata))] then
          (7/10) * (1 / (60 + (rankOf (contentsOf [("docA", (9:ℚ), ([] : Metadata))]) "docA" : ℚ) + 1)) else 0)
        + (if "docA" ∈ contentsOf [("docB", (2:ℚ), ([] : Metadata)), ("docA", (1:ℚ), ([] : Metadata))] then
          (3/10) * (1 / (60 + (rankOf (contentsOf [("docB", (2:ℚ), ([] : Metadata)), ("docA", (1:ℚ), ([] : Metadata))]) "docA" : ℚ) + 1)) else 0) :=
  rrf_fused_score_c1 (fun s => if s = "docA" then (0 : Int) else 1)
    [("docA", (9:ℚ), ([] : Metadata))]
    [("docB", (2:ℚ), ([] : Metadata)), ("docA", (1:ℚ), ([] : Metadata))] "docA"
    (by decide) (by decide) (by decide)

/-- C7: for every query, vector reply and every `top_k`, `search` returns at
most `top_k` results. -/
theorem search_length_le_top_k (log : ℚ → ℚ) (h : String → Int) (wv wb : ℚ)
    (vecRes : List Doc) (docs : List (String × Metadata)) (q : String) (top_k : ℕ) :
    (searchModel log h wv wb vecRes docs q top_k).length ≤ top_k := by
  unfold searchModel reciprocal_rank_fusion
  rw [List.length_map, List.length_take]
  exact min_le_left _ _

/-- C10: the fusion output depends only on the contents and metadata of the
two input lists, never on the raw score field carried in the tuples. -/
theorem rrf_ignores_raw_scores (h : String → Int) (wv wb : ℚ) (kR : ℕ)
    (v1 v2 b1 b2 : List Doc) (top_k : ℕ)
    (hv : v1.map (fun d => (d.1, d.2.2)) = v2.map (fun d => (d.1, d.2.2)))
    (hb : b1.map (fun d => (d.1, d.2.2)) = b2.map (fun d => (d.1, d.2.2))) :
    reciprocal_rank_fusion h wv wb kR v1 b1 top_k
      = reciprocal_rank_fusion h wv wb kR v2 b2 top_k := by
  have fold_congr_proj : ∀ (w : ℚ) (l1 l2 : List Doc) (n : ℕ) (st : FState),
      l1.map (fun d => (d.1, d.2.2)) = l2.map (fun d => (d.1, d.2.2)) →
      List.foldl (rrfStep h w kR) st (List.enumFrom n l1)
        = List.foldl (rrfStep h w kR) st (List.enumFrom n l2) := by
    intro w l1
    induction l1 with
    | nil =>
      intro l2 n st hmap
      cases l2 with
      | nil => rfl
      | cons d2 l2 => simp at hmap
    | cons d1 l1 ih =>
      intro l2 n st hmap
      cases l2 with
      | nil => simp at hmap
      | cons d2 l2 =>
        simp only [List.map_cons, List.cons.injEq] at hmap
        obtain ⟨hd, hrest⟩ := hmap
        rw [List.enumFrom_cons, List.enumFrom_cons, List.foldl_cons, List.foldl_cons]
        rw [Prod.mk.injEq] at hd
        obtain ⟨h1, h2⟩ := hd
        have hstep : rrfStep h w kR st (n, d1) = rrfStep h w kR st (n, d2) := by
          simp only [rrfStep, h1, h2]
        rw [hstep, ih l2 (n + 1) _ hrest]
  have hstate : rrfState h wv wb kR v1 b1 = rrfState h wv wb kR v2 b2 := by
    unfold rrfState
    rw [enum_eq_enumFrom_zero b1, enum_eq_enumFrom_zero v1,
      enum_eq_enumFrom_zero b2, enum_eq_enumFrom_zero v2,
      fold_congr_proj wv v1 v2 0 _ hv]
    exact fold_congr_proj wb b1 b2 0 _ hb
  unfold reciprocal_rank_fusion
  rw [hstate]

/-- Witness for C10: two vector lists that differ only in the raw similarity
field produce identical fusion output. -/
theorem rrf_ignores_raw_scores_witness :
    reciprocal_rank_fusion (fun _ => (0 : Int)) (7/10) (3/10) 60
        [("docA", (5:ℚ), ([] : Metadata))] [] 3
      = reciprocal_rank_fusion (fun _ => (0 : Int)) (7/10) (3/10) 60
        [("docA", (9:ℚ), ([] : Metadata))] [] 3 :=
  rrf_ignores_raw_scores (fun _ => (0 : Int)) (7/10) (3/10) 60
    [("docA", (5:ℚ), ([] : Metadata))] [("docA", (9:ℚ), ([] : Metadata))] [] [] 3 rfl rfl

/-- C3 counterexample: the vector task fails, the lexical task succeeds with a
nonempty result, yet `search` surfaces a hard failure instead of returning a
lexical-only result list (`asyncio.gather` propagates the exception; no
degraded-mode tagging exists anywhere in the code). -/
theorem searchE_vector_failure_cex :
    searchE (fun _ => (0 : Int)) (7/10) (3/10)
        (Except.error "vector subsystem unavailable")
        (Except.ok [("docA", (1:ℚ), ([] : Metadata))]) 5
      = Except.error "vector subsystem unavailable" := rfl

/-- C3 amended: if the vector subsystem task raises, `search` propagates the
failure to the caller even when the lexical subsystem succeeds — it does not
degrade to a lexical-only result list; moreover every result the fusion does
return carries `source = "hybrid"`, so no degraded-mode tag exists. -/
theorem searchE_failure_propagation :
    (∀ (h : String → Int) (wv wb : ℚ) (e : String)
        (bmOutcome : Except String (List Doc)) (top_k : ℕ),
      searchE h wv wb (Except.error e) bmOutcome top_k = Except.error e)
    ∧ (∀ (h : String → Int) (wv wb : ℚ) (kR : ℕ) (v b : List Doc) (top_k : ℕ),
      ∀ r ∈ reciprocal_rank_fusion h wv wb kR v b top_k, r.source = "hybrid") := by
  constructor
  · intro h wv wb e bmOutcome top_k
    rfl
  · intro h wv wb kR v b top_k r hr
    unfold reciprocal_rank_fusion at hr
    obtain ⟨key, _, rfl⟩ := List.mem_map.mp hr
    rfl

/-- Witness for C3 (amended): concrete failing vector task, and a concrete
fused result whose tag is `"hybrid"`. -/
theorem searchE_failure_propagation_witness :
    searchE (fun _ => (0 : Int)) (7/10) (3/10) (Except.error "boom")
        (Except.ok []) 2 = Except.error "boom"
    ∧ (SearchResult.mk "docA" [] (7/610) "hybrid").source = "hybrid" :=
  ⟨searchE_failure_propagation.1 (fun _ => (0 : Int)) (7/10) (3/10) "boom"
      (Except.ok []) 2,
    searchE_failure_propagation.2 (fun _ => (0 : Int)) (7/10) (3/10) 60
      [("docA", (1:ℚ), ([] : Metadata))] [] 2
      (SearchResult.mk "docA" [] (7/610) "hybrid")
      (by norm_num [reciprocal_rank_fusion, rrfState, rrfStep, rrfQ, List.enum,
        List.enumFrom, List.foldl, dget, dset, keysOf, List.insertionSort,
        List.orderedInsert, keyRel])⟩

/-- C4 counterexample: the code has no empty-query guard.  With an empty query
the lexical list is empty, but `search` fuses whatever the vector store
returned for the empty-string embedding, so the result is not empty. -/
theorem search_empty_query_cex :
    searchModel (fun x => x) (fun _ => (0 : Int)) (7/10) (3/10)
        [("docA", (1:ℚ), ([] : Metadata))] [] "" 5 ≠ [] := by
  norm_num [searchModel, bm25_search, bm25Scores, get_scores, pyTokenize,
    pyLastRevSlice, reciprocal_rank_fusion, rrfState, rrfStep, rrfQ, List.enum,
    List.enumFrom, List.foldl, dget, dset, keysOf, List.insertionSort,
    List.orderedInsert, keyRel,
    show pyTokenize "" = [] from of_decide_eq_true (by with_unfolding_all rfl)]

/-- C4 amended: an empty or whitespace-only query tokenizes to no terms, so
every BM25 score is zero, `_bm25_search` returns the empty list, and `search`
returns (without error) exactly the fusion of the vector list with an empty
lexical list — which is empty only when the vector reply is empty. -/
theorem search_empty_query (log : ℚ → ℚ) (h : String → Int) (wv wb : ℚ)
    (vecRes : List Doc) (docs : List (String × Metadata)) (q : String) (top_k : ℕ)
    (hq : pyTokenize q = []) :
    bm25_search log docs q top_k = []
    ∧ searchModel log h wv wb vecRes docs q top_k
      = reciprocal_rank_fusion h wv wb 60 vecRes [] top_k := by
  have hsc : ∀ i : ℕ, (bm25Scores log docs q).getD i 0 = 0 := by
    intro i
    unfold bm25Scores
    rw [hq]
    unfold get_scores
    by_cases hN : (docs.map (fun d => pyTokenize d.1)).length = 0
    · rw [if_pos hN]
      simp
    · rw [if_neg hN, List.foldl_nil]
      exact getD_replicate_zero _ _
  have hbm : bm25_search log docs q top_k = [] := by
    unfold bm25_search
    rw [List.map_eq_nil_iff]
    apply List.filter_eq_nil_iff.mpr
    intro i _
    rw [hsc i]
    simp
  exact ⟨hbm, by unfold searchModel; rw [hbm]⟩

/-- Witness for C4 (amended): a whitespace-only query on a concrete instance. -/
theorem search_empty_query_witness :
    bm25_search (fun x => x) [("docA doc", [])] "  " 4 = []
    ∧ searchModel (fun x => x) (fun _ => (0 : Int)) (7/10) (3/10)
        [("docA", (1:ℚ), ([] : Metadata))] [("docA doc", [])] "  " 4
      = reciprocal_rank_fusion (fun _ => (0 : Int)) (7/10) (3/10) 60
          [("docA", (1:ℚ), ([] : Metadata))] [] 4 :=
  search_empty_query (fun x => x) (fun _ => (0 : Int)) (7/10) (3/10)
    [("docA", (1:ℚ), ([] : Metadata))] [("docA doc", [])] "  " 4
    (of_decide_eq_true (by with_unfolding_all rfl))

/-! ## Tie-break order (claim C5) -/

/-- The `(origin, rank)` tie-break key of a fused document: origin `0` for
documents present in the vector list (at their vector rank), origin `1` for
lexical-only documents (at their BM25 rank). -/
def originRank (vec bm : List Doc) (c : String) : ℕ × ℕ :=
  if c ∈ contentsOf vec then (0, rankOf (contentsOf vec) c)
  else (1, rankOf (contentsOf bm) c)

/-- Strict lexicographic order on `(origin, rank)` pairs. -/
def pairLt (p q2 : ℕ × ℕ) : Prop :=
  p.1 < q2.1 ∨ (p.1 = q2.1 ∧ p.2 < q2.2)

theorem mergedContents_pairwise_originRank (vec bm : List Doc)
    (Hnv : (contentsOf vec).Nodup) (Hnb : (contentsOf bm).Nodup) :
    (mergedContents vec bm).Pairwise
      (fun a b => pairLt (originRank vec bm a) (originRank vec bm b)) := by
  unfold mergedContents
  rw [List.pairwise_append]
  refine ⟨?_, ?_, ?_⟩
  · apply (rankOf_pairwise _ Hnv).imp_of_mem
    intro a b ha hb hab
    unfold originRank pairLt
    rw [if_pos ha, if_pos hb]
    exact Or.inr ⟨rfl, hab⟩
  · have hbp : ((contentsOf bm).filter
        (fun c => decide (c ∉ contentsOf vec))).Pairwise
        (fun a b => rankOf (contentsOf bm) a < rankOf (contentsOf bm) b) :=
      List.Pairwise.sublist (List.filter_sublist (contentsOf bm))
        (rankOf_pairwise _ Hnb)
    apply hbp.imp_of_mem
    intro a b ha hb hab
    have hav : a ∉ contentsOf vec := by
      simpa using (List.mem_filter.mp ha).2
    have hbv : b ∉ contentsOf vec := by
      simpa using (List.mem_filter.mp hb).2
    unfold originRank pairLt
    rw [if_neg hav, if_neg hbv]
    exact Or.inr ⟨rfl, hab⟩
  · intro a ha b hb
    have hbv : b ∉ contentsOf vec := by
      simpa using (List.mem_filter.mp hb).2
    unfold originRank pairLt
    rw [if_pos ha, if_neg hbv]
    exact Or.inl Nat.zero_lt_one

/-- C5: the fused result list is sorted by combined score descending, and ties
are broken by list of origin (vector before lexical) and then by original rank
within that list (lower rank first) — a consequence of Python's stable sort
over the dict's insertion order. -/
theorem rrf_sorted_tiebreak (h : String → Int) (wv wb : ℚ) (kR : ℕ)
    (vec bm : List Doc) (top_k : ℕ)
    (Hinj : InjOnList h (contentsOf vec ++ contentsOf bm))
    (Hnv : (contentsOf vec).Nodup) (Hnb : (contentsOf bm).Nodup) :
    (reciprocal_rank_fusion h wv wb kR vec bm top_k).Pairwise
      (fun a b => b.score < a.score ∨ (b.score = a.score ∧
        pairLt (originRank vec bm a.content) (originRank vec bm b.content))) := by
  rw [rrf_characterization h wv wb kR vec bm top_k Hinj Hnv Hnb]
  unfold rrfSpec
  have hsorted := insertionSort_pairwise_stable (fusedScore wv wb kR vec bm)
    (fun a b => pairLt (originRank vec bm a) (originRank vec bm b))
    (mergedContents vec bm)
    ((mergedContents_pairwise_originRank vec bm Hnv Hnb).imp
      (fun hx => fun (_ : fusedScore wv wb kR vec bm _ = fusedScore wv wb kR vec bm _) => hx))
  have htake := List.Pairwise.sublist (List.take_sublist top_k _) hsorted
  apply List.Pairwise.map
  · intro a b hr
    exact hr
  · exact htake

/-- Witness for C5: concrete instance, one document per list, injective hash. -/
theorem rrf_sorted_tiebreak_witness :
    (reciprocal_rank_fusion (fun s => if s = "docA" then (0 : Int) else 1)
        (7/10) (3/10) 60 [("docA", (9:ℚ), ([] : Metadata))]
        [("docB", (2:ℚ), ([] : Metadata))] 5).Pairwise
      (fun a b => b.score < a.score ∨ (b.score = a.score ∧
        pairLt
          (originRank [("docA", (9:ℚ), ([] : Metadata))]
            [("docB", (2:ℚ), ([] : Metadata))] a.content)
          (originRank [("docA", (9:ℚ), ([] : Metadata))]
            [("docB", (2:ℚ), ([] : Metadata))] b.content))) :=
  rrf_sorted_tiebreak (fun s => if s = "docA" then (0 : Int) else 1) (7/10) (3/10) 60
    [("docA", (9:ℚ), ([] : Metadata))] [("docB", (2:ℚ), ([] : Metadata))] 5
    (by decide) (by decide) (by decide)

/-- C6 counterexample: the fusion keys by `hash(content)`, so under a hash
function with a collision two distinct documents are merged into a single
fused entry — here a constant hash collapses `"docA"` and `"docB"` into one
result. -/
theorem rrf_content_hash_collision_cex :
    (reciprocal_rank_fusion (fun _ => (0 : Int)) (7/10) (3/10) 60
        [("docA", (1:ℚ), ([] : Metadata))] [("docB", (1:ℚ), ([] : Metadata))] 5).length = 1
    ∧ "docA" ≠ "docB" := by
  constructor
  · norm_num [reciprocal_rank_fusion, rrfState, rrfStep, rrfQ, List.enum, List.enumFrom,
      List.foldl, dget, dset, keysOf, List.insertionSort, List.orderedInsert, keyRel]
  · decide

/-- C6 amended: fusion accumulates contributions under `hash(content)`, not
under a stable assigned identifier; whenever the hash is injective on the
contents at hand this yields exactly one dict entry per distinct content (in
dict insertion order), and the output then never merges two distinct
documents (its contents are pairwise distinct), but a hash collision merges
distinct documents (see the counterexample). -/
theorem rrf_keyed_per_document (h : String → Int) (wv wb : ℚ) (kR : ℕ)
    (vec bm : List Doc) (top_k : ℕ)
    (Hinj : InjOnList h (contentsOf vec ++ contentsOf bm))
    (Hnv : (contentsOf vec).Nodup) (Hnb : (contentsOf bm).Nodup) :
    keysOf (rrfState h wv wb kR vec bm).scores = (mergedContents vec bm).map h
    ∧ ((reciprocal_rank_fusion h wv wb kR vec bm top_k).map
        (fun r => r.content)).Nodup := by
  refine ⟨rrfState_keys h wv wb kR vec bm Hinj Hnv Hnb, ?_⟩
  rw [rrf_characterization h wv wb kR vec bm top_k Hinj Hnv Hnb]
  unfold rrfSpec
  rw [List.map_map,
    show ((fun r : SearchResult => r.content) ∘ specEntry wv wb kR vec bm) = id from rfl,
    List.map_id]
  have hsortnd : (List.insertionSort (keyRel (fusedScore wv wb kR vec bm))
      (mergedContents vec bm)).Nodup :=
    (List.perm_insertionSort _ _).nodup_iff.mpr (mergedContents_nodup Hnv Hnb)
  exact List.Nodup.sublist (List.take_sublist _ _) hsortnd

/-- Witness for C6 (amended): concrete instance with an injective hash. -/
theorem rrf_keyed_per_document_witness :
    keysOf (rrfState (fun s => if s = "docA" then (0 : Int) else 1) (7/10) (3/10) 60
        [("docA", (9:ℚ), ([] : Metadata))] [("docB", (2:ℚ), ([] : Metadata))]).scores
      = (mergedContents [("docA", (9:ℚ), ([] : Metadata))]
          [("docB", (2:ℚ), ([] : Metadata))]).map
          (fun s => if s = "docA" then (0 : Int) else 1)
    ∧ ((reciprocal_rank_fusion (fun s => if s = "docA" then (0 : Int) else 1)
        (7/10) (3/10) 60 [("docA", (9:ℚ), ([] : Metadata))]
        [("docB", (2:ℚ), ([] : Metadata))] 5).map (fun r => r.content)).Nodup :=
  rrf_keyed_per_document (fun s => if s = "docA" then (0 : Int) else 1) (7/10) (3/10) 60
    [("docA", (9:ℚ), ([] : Metadata))] [("docB", (2:ℚ), ([] : Metadata))] 5
    (by decide) (by decide) (by decide)

/-- C8 counterexample: with `w_vector = 1, w_lexical = 0` the fused output is
not the vector-only ranking — lexical-only documents are still entered into
the score dict (with contribution `0`) and are appended after the vector
documents rather than dropped. -/
theorem rrf_vector_only_weights_cex :
    (reciprocal_rank_fusion (fun s => if s = "docA" then (0 : Int) else 1) 1 0 60
        [("docA", (9:ℚ), ([] : Metadata))] [("docB", (2:ℚ), ([] : Metadata))] 2).map
        (fun r => r.content)
      ≠ contentsOf [("docA", (9:ℚ), ([] : Metadata))] := by
  norm_num [reciprocal_rank_fusion, rrfState, rrfStep, rrfQ, List.enum, List.enumFrom,
    List.foldl, dget, dset, keysOf, List.insertionSort, List.orderedInsert, keyRel,
    contentsOf, show (("docB" : String) = "docA") = False from eq_false (by decide)]

/-- C8 amended: with `w_vector = 1, w_lexical = 0` (injective hash,
duplicate-free lists) the fused output lists the vector documents first, in
exactly the vector order, followed by the lexical-only documents (fused score
`0`) in their lexical order, truncated to `top_k`; in particular the
vector-only ranking order is reproduced on the vector documents, but
lexical-only documents are appended rather than dropped. -/
theorem rrf_vector_only_weights (h : String → Int) (vec bm : List Doc) (top_k : ℕ)
    (Hinj : InjOnList h (contentsOf vec ++ contentsOf bm))
    (Hnv : (contentsOf vec).Nodup) (Hnb : (contentsOf bm).Nodup) :
    (reciprocal_rank_fusion h 1 0 60 vec bm top_k).map (fun r => r.content)
      = (mergedContents vec bm).take top_k := by
  rw [rrf_characterization h 1 0 60 vec bm top_k Hinj Hnv Hnb]
  unfold rrfSpec
  rw [List.map_map,
    show ((fun r : SearchResult => r.content) ∘ specEntry 1 0 60 vec bm) = id from rfl,
    List.map_id]
  have hfused : ∀ c, fusedScore 1 0 60 vec bm c
      = if c ∈ contentsOf vec then rrfQ 60 (rankOf (contentsOf vec) c) else 0 := by
    intro c
    unfold fusedScore
    simp
  have hsorted : List.Sorted (keyRel (fusedScore 1 0 60 vec bm)) (mergedContents vec bm) := by
    unfold List.Sorted mergedContents
    rw [List.pairwise_append]
    refine ⟨?_, ?_, ?_⟩
    · apply (rankOf_pairwise _ Hnv).imp_of_mem
      intro a b ha hb hab
      unfold keyRel
      rw [hfused a, hfused b, if_pos ha, if_pos hb]
      exact le_of_lt (rrfQ_lt_of_lt 60 hab)
    · have hbp : ((contentsOf bm).filter
          (fun c => decide (c ∉ contentsOf vec))).Pairwise
          (fun a b => rankOf (contentsOf bm) a < rankOf (contentsOf bm) b) :=
        List.Pairwise.sublist (List.filter_sublist (contentsOf bm))
          (rankOf_pairwise _ Hnb)
      apply hbp.imp_of_mem
      intro a b ha hb _
      have hav : a ∉ contentsOf vec := by
        simpa using (List.mem_filter.mp ha).2
      have hbv : b ∉ contentsOf vec := by
        simpa using (List.mem_filter.mp hb).2
      unfold keyRel
      rw [hfused a, hfused b, if_neg hav, if_neg hbv]
    · intro a ha b hb
      have hbv : b ∉ contentsOf vec := by
        simpa using (List.mem_filter.mp hb).2
      unfold keyRel
      rw [hfused a, hfused b, if_pos ha, if_neg hbv]
      exact le_of_lt (rrfQ_pos 60 _)
  rw [List.Sorted.insertionSort_eq hsorted]

/-- Witness for C8 (amended): the concrete instance of the counterexample,
whose fused contents are exactly the merged contents truncated to 2. -/
theorem rrf_vector_only_weights_witness :
    (reciprocal_rank_fusion (fun s => if s = "docA" then (0 : Int) else 1) 1 0 60
        [("docA", (9:ℚ), ([] : Metadata))] [("docB", (2:ℚ), ([] : Metadata))] 2).map
        (fun r => r.content)
      = (mergedContents [("docA", (9:ℚ), ([] : Metadata))]
          [("docB", (2:ℚ), ([] : Metadata))]).take 2 :=
  rrf_vector_only_weights (fun s => if s = "docA" then (0 : Int) else 1)
    [("docA", (9:ℚ), ([] : Metadata))] [("docB", (2:ℚ), ([] : Metadata))] 2
    (by decide) (by decide) (by decide)

/-- C9: search is deterministic — the output is a pure function of the corpus,
the query and the two subsystem replies, and in particular does not depend on
the process's string-hash seed: any two hash functions that are injective on
the contents at hand yield identical ordered output (contents, metadata and
scores).  At the lexical level, `get_scores` is a pure function of the corpus
and the query terms by construction. -/
theorem search_hash_seed_invariance (log : ℚ → ℚ) (h1 h2 : String → Int) (wv wb : ℚ)
    (vecRes : List Doc) (docs : List (String × Metadata)) (q : String) (top_k : ℕ)
    (Hinj1 : InjOnList h1 (contentsOf vecRes ++ contentsOf (bm25_search log docs q top_k)))
    (Hinj2 : InjOnList h2 (contentsOf vecRes ++ contentsOf (bm25_search log docs q top_k)))
    (Hnv : (contentsOf vecRes).Nodup)
    (Hnb : (contentsOf (bm25_search log docs q top_k)).Nodup) :
    searchModel log h1 wv wb vecRes docs q top_k
      = searchModel log h2 wv wb vecRes docs q top_k := by
  unfold searchModel
  rw [rrf_characterization h1 wv wb 60 vecRes _ top_k Hinj1 Hnv Hnb,
    rrf_characterization h2 wv wb 60 vecRes _ top_k Hinj2 Hnv Hnb]

/-- Witness for C9: two different (injective-on-the-inputs) hash functions
produce the same search output on a concrete instance. -/
theorem search_hash_seed_invariance_witness :
    searchModel (fun x => x) (fun _ => (0 : Int)) (7/10) (3/10)
        [("docA", (1:ℚ), ([] : Metadata))] [] "gpu" 3
      = searchModel (fun x => x) (fun _ => (5 : Int)) (7/10) (3/10)
        [("docA", (1:ℚ), ([] : Metadata))] [] "gpu" 3 :=
  search_hash_seed_invariance (fun x => x) (fun _ => (0 : Int)) (fun _ => (5 : Int))
    (7/10) (3/10) [("docA", (1:ℚ), ([] : Metadata))] [] "gpu" 3
    (of_decide_eq_true (by with_unfolding_all rfl))
    (of_decide_eq_true (by with_unfolding_all rfl))
    (by decide)
    (of_decide_eq_true (by with_unfolding_all rfl))
